import Mathlib

/-!
# Construct-similarity comparison pipeline (ex2 notebook)

Shallow embedding of the similarity pipeline of the personality-construct
notebook: embedding aggregation (`embeds.groupby('construct').mean()`),
similarity-matrix construction (`sklearn.metrics.pairwise.cosine_similarity`),
reference-matrix pivoting (`DataFrame.pivot`), alignment (`DataFrame.align`),
off-diagonal extraction (`lower_triangle_flat` via `np.triu_indices(n, k=1)`)
and correlation scoring (`Series.corr`).

Modelling conventions: IEEE doubles are modelled by exact rationals `ℚ`;
NaN is modelled by `none : Option ℚ` (a cell that holds no defined number);
`np.sqrt` is modelled by `sqrtQ`, a computable function that agrees with the
true square root on perfect squares (every place a theorem below evaluates it)
and is, like floating-point sqrt, some rounding of the true square root
elsewhere.  Where a claim is about bit-exactness of floating-point results,
the arithmetic is additionally parametrised by an arbitrary per-operation
rounding function `rnd : ℚ → ℚ`, so the theorem covers every IEEE rounding
behaviour; `rnd = id` recovers the exact-arithmetic model.
-/

namespace NeoPipeline

/-- Integer square root (the largest `r` with `r * r ≤ n`), by structural
recursion so that it evaluates inside the kernel. -/
def sqrtN : Nat → Nat
  | 0 => 0
  | n + 1 =>
    let r := sqrtN n
    if (r + 1) * (r + 1) ≤ n + 1 then r + 1 else r

/-- Model of `np.sqrt` on nonnegative rationals: componentwise integer
square root on numerator and denominator.  Exact on perfect squares
(`sqrtQ 0 = 0`, `sqrtQ 1 = 1`, `sqrtQ 4 = 2`, ...), an approximation of the
true square root elsewhere, as floating-point sqrt is. -/
def sqrtQ (q : ℚ) : ℚ :=
  (sqrtN q.num.toNat : ℚ) / (sqrtN q.den : ℚ)

/-- Dot product of two vectors with an explicit per-operation rounding
function `rnd`, modelling the float evaluation order
`((0 + x₀*y₀) + x₁*y₁) + ...` of a BLAS dot product: each product and each
partial sum is rounded.  `rnd = id` gives exact rational arithmetic. -/
def dotR (rnd : ℚ → ℚ) (u v : List ℚ) : ℚ :=
  (List.zipWith (fun a b => rnd (a * b)) u v).foldl (fun s x => rnd (s + x)) 0

/-- Exact dot product (`dotR` with no rounding). -/
def dotQ (u v : List ℚ) : ℚ := dotR id u v

/-- Sum of squares of a vector (the square of its Euclidean norm). -/
def sumSq (u : List ℚ) : ℚ := dotQ u u

/-- One row of sklearn's `normalize(X, norm='l2')`: divide by the Euclidean
norm, except that zero norms are replaced by `1` first
(`norms[norms == 0.0] = 1.0` in sklearn), so a zero row stays a zero row
instead of producing NaN. -/
def normalizeRow (u : List ℚ) : List ℚ :=
  let nrm := sqrtQ (sumSq u)
  let d := if nrm = 0 then 1 else nrm
  u.map (fun a => a / d)

/-- The Gram matrix `N @ N.T` of a list of rows, with per-operation rounding
`rnd` in each dot product. -/
def gram (rnd : ℚ → ℚ) (N : List (List ℚ)) : List (List ℚ) :=
  N.map (fun r => N.map (fun c => dotR rnd r c))

/-- `sklearn.metrics.pairwise.cosine_similarity(X)` = `normalize(X) @ normalize(X).T`,
with per-operation rounding `rnd` in the matrix product. -/
def cosine_similarityR (rnd : ℚ → ℚ) (rows : List (List ℚ)) : List (List ℚ) :=
  gram rnd (rows.map normalizeRow)

/-- `cosine_similarity` with exact rational arithmetic. -/
def cosine_similarity (rows : List (List ℚ)) : List (List ℚ) :=
  cosine_similarityR id rows

/-- A pandas DataFrame of floats: row labels, column labels, and a
row-major grid of cells; a cell holding `none` is a NaN cell. -/
structure DFrame where
  rows : List String
  cols : List String
  data : List (List (Option ℚ))
deriving DecidableEq, Repr

/-- Positional cell access `df.values[i, j]`; out-of-range reads give `none`. -/
def cellAt (f : DFrame) (i j : Nat) : Option ℚ :=
  (f.data.getD i []).getD j none

/-- Label-based cell access `df.loc[r, c]`: `none` when a label is absent. -/
def cellL (f : DFrame) (r c : String) : Option ℚ :=
  match f.rows.findIdx? (fun s => s = r), f.cols.findIdx? (fun s => s = c) with
  | some i, some j => cellAt f i j
  | _, _ => none

/-- Sort a list of labels ascending and drop duplicates (pandas sorted
unique index). -/
def dedupSort (l : List String) : List String :=
  (l.insertionSort (· ≤ ·)).dedup

/-- pandas `Index.union` for string indexes: the sorted union of the two
label sets. -/
def sortedUnion (l₁ l₂ : List String) : List String :=
  dedupSort (l₁ ++ l₂)

/-- Reindex a frame to new row and column labels (pandas `reindex`): a cell
keeps its value when both labels existed before, and is NaN otherwise. -/
def reindex (f : DFrame) (r c : List String) : DFrame :=
  { rows := r, cols := c,
    data := r.map (fun rl => c.map (fun cl => cellL f rl cl)) }

/-- `predicted.align(observed)` with pandas defaults (`join='outer'`,
`axis=None`): both frames are reindexed to the sorted union of the row labels
and the sorted union of the column labels; cells new to a frame are NaN. -/
def alignDF (p o : DFrame) : DFrame × DFrame :=
  let r := sortedUnion p.rows o.rows
  let c := sortedUnion p.cols o.cols
  (reindex p r c, reindex o r c)

/-- `observed.pivot(index='construct_1', columns='construct_2', values='correlation')`:
fails (ValueError, modelled `none`) when the same ordered
(construct_1, construct_2) pair occurs twice — even with equal values;
otherwise rows are the sorted distinct first labels, columns the sorted
distinct second labels, and a cell holds the triple's value when the ordered
pair occurs, NaN when it does not. -/
def pivotDF (ts : List (String × String × ℚ)) : Option DFrame :=
  if (ts.map (fun t => (t.1, t.2.1))).Nodup then
    some { rows := dedupSort (ts.map (fun t => t.1)),
           cols := dedupSort (ts.map (fun t => t.2.1)),
           data := (dedupSort (ts.map (fun t => t.1))).map (fun r =>
             (dedupSort (ts.map (fun t => t.2.1))).map (fun c =>
               (ts.find? (fun t => t.1 = r ∧ t.2.1 = c)).map (fun t => t.2.2))) }
  else none

/-- `np.triu_indices(n, k)`: the index pairs `(i, j)` with `i + k ≤ j`, in
row-major order (numpy enumerates the nonzero positions of the triangular
mask row by row). -/
def triu_indices (n k : Nat) : List (Nat × Nat) :=
  (List.range n).flatMap (fun i =>
    ((List.range n).filter (fun j => i + k ≤ j)).map (fun j => (i, j)))

/-- `lower_triangle_flat(df)`: despite its name it reads the positions given
by `np.triu_indices(len(df), k=1)`, i.e. the strictly upper triangle, row by
row, as a flat series. -/
def lower_triangle_flat (df : DFrame) : List (Option ℚ) :=
  (triu_indices df.rows.length 1).map (fun p => cellAt df p.1 p.2)

/-- Spec-side description of the traversal: row-major enumeration of the
pairs `(i, j)` with `i < j`, written independently of `triu_indices`. -/
def specUpperPairs (n : Nat) : List (Nat × Nat) :=
  (List.range n).flatMap (fun i =>
    (List.range (n - (i + 1))).map (fun d => (i, i + 1 + d)))

/-- The embeddings (rows) of the items carrying label `l`, in input order. -/
def rowsOf (items : List (String × List ℚ)) (l : String) : List (List ℚ) :=
  (items.filter (fun it => it.1 = l)).map (fun it => it.2)

/-- Column `k` mean of a group of rows: sum of the `k`-th entries divided by
the number of rows (pandas column-wise `mean`). -/
def colMean (vs : List (List ℚ)) (k : Nat) : ℚ :=
  ((vs.map (fun v => v.getD k 0)).sum) / (vs.length : ℚ)

/-- `embeds.groupby('construct').mean(numeric_only=True)`: groups are the
sorted distinct labels (pandas `sort=True`), and each group's vector is the
column-wise mean of the group's embedding rows.  The column count is the
embedding dimensionality of the input frame (its first row's width). -/
def aggregate (items : List (String × List ℚ)) : List (String × List ℚ) :=
  let d := ((items.headD ("", [])).2).length
  (dedupSort (items.map (fun it => it.1))).map (fun l =>
    (l, (List.range d).map (fun k => colMean (rowsOf items l) k)))

/-- Spec-side description of the per-dimension arithmetic mean of a group:
sum the vectors componentwise, then divide every component by the group
size. -/
def specMeanVec (d : Nat) (vs : List (List ℚ)) : List ℚ :=
  (vs.foldr (fun v acc => List.zipWith (· + ·) v acc) (List.replicate d 0)).map
    (fun x => x / (vs.length : ℚ))

/-- The `predicted` frame:
`pd.DataFrame(cosine_similarity(construct_embeds), index=construct_embeds.index,
columns=construct_embeds.index)`, with per-operation rounding `rnd` in the
similarity computation. -/
def buildR (rnd : ℚ → ℚ) (vecs : List (String × List ℚ)) : DFrame :=
  { rows := vecs.map (fun v => v.1),
    cols := vecs.map (fun v => v.1),
    data := (cosine_similarityR rnd (vecs.map (fun v => v.2))).map
      (fun r => r.map (fun x => some x)) }

/-- `build` with exact rational arithmetic. -/
def build (vecs : List (String × List ℚ)) : DFrame := buildR id vecs

/-- The index pairs at which both series hold a defined number
(pandas masks out every position where either series is NaN before
computing the correlation). -/
def validPairs (a b : List (Option ℚ)) : List (ℚ × ℚ) :=
  (a.zip b).filterMap (fun p =>
    match p with
    | (some x, some y) => some (x, y)
    | _ => none)

/-- Arithmetic mean of a list of rationals. -/
def meanQ (l : List ℚ) : ℚ := l.sum / (l.length : ℚ)

/-- Sum of squared deviations from the mean (the unnormalised variance; it
is zero exactly when the Pearson denominator degenerates). -/
def devSq (l : List ℚ) : ℚ := (l.map (fun x => (x - meanQ l) ^ 2)).sum

/-- Pearson correlation of a list of (x, y) pairs:
`Σ (x-x̄)(y-ȳ) / (√Σ(x-x̄)² · √Σ(y-ȳ)²)`.  A zero denominator — fewer than
two pairs, or a zero-variance coordinate — gives NaN (`none`), as the float
division `0/0` or `c/0` does; no exception is raised. -/
def corrPairs (ps : List (ℚ × ℚ)) : Option ℚ :=
  let xs := ps.map (fun p => p.1)
  let ys := ps.map (fun p => p.2)
  let cov := (List.zipWith (fun x y => (x - meanQ xs) * (y - meanQ ys)) xs ys).sum
  let denom := sqrtQ (devSq xs) * sqrtQ (devSq ys)
  if denom = 0 then none else some (cov / denom)

/-- `predicted.corr(observed)` for two equal-length float series: drop every
position where either value is NaN, then Pearson over the remaining pairs. -/
def corrQ (a b : List (Option ℚ)) : Option ℚ :=
  corrPairs (validPairs a b)

/-! Concrete inputs used by witnesses and counterexamples. -/

/-- The spec's aggregation scenario: items (A,"x"), (A,"y"), (B,"z") with
embeddings [1,0], [1,0], [0,1]. -/
def scenarioItems : List (String × List ℚ) :=
  [("A", [1, 0]), ("A", [1, 0]), ("B", [0, 1])]

/-- An input in which label "Z" carries the all-zero vector. -/
def zeroVecInput : List (String × List ℚ) :=
  [("B", [1, 0]), ("Z", [0, 0])]

/-- A 2×2 predicted-style frame with labels A, B. -/
def frameAB : DFrame :=
  { rows := ["A", "B"], cols := ["A", "B"],
    data := [[some 1, some 0], [some 0, some 1]] }

/-- A 2×2 observed-style frame with labels B, C. -/
def frameBC : DFrame :=
  { rows := ["B", "C"], cols := ["B", "C"],
    data := [[some 1, some (1/2)], [some (1/2), some 1]] }

/-- A non-symmetric 2×2 frame: 5 above the diagonal, 7 below. -/
def asymFrame : DFrame :=
  { rows := ["A", "B"], cols := ["A", "B"],
    data := [[some 1, some 5], [some 7, some 1]] }

/-- Reference triples in which the unordered pair {A, B} occurs twice with
conflicting values, once in each order. -/
def conflictTriples : List (String × String × ℚ) :=
  [("A", "B", 1/2), ("B", "A", 9/10)]

/-- Reference triples in which the same ordered pair occurs twice with the
same value. -/
def dupOrderedTriples : List (String × String × ℚ) :=
  [("A", "B", 1/2), ("A", "B", 1/2)]

/-- A 1×1 frame. -/
def tinyFrame : DFrame :=
  { rows := ["A"], cols := ["A"], data := [[some 1]] }

/-! ## Helper lemmas -/

theorem foldl_add_eq (l : List ℚ) (c : ℚ) :
    l.foldl (fun s x => s + x) c = c + l.sum := by
  induction l generalizing c with
  | nil => simp
  | cons x xs ih => simp [ih, add_assoc]

theorem filter_range_le (k n : Nat) :
    (List.range n).filter (fun j => k ≤ j) = (List.range (n - k)).map (fun d => k + d) := by
  induction n with
  | zero => simp
  | succ n ih =>
    rw [List.range_succ, List.filter_append, ih]
    by_cases h : k ≤ n
    · have h1 : n + 1 - k = (n - k) + 1 := by omega
      have h2 : k + (n - k) = n := by omega
      rw [h1, List.range_succ, List.map_append]
      simp [h, h2]
    · have h1 : n + 1 - k = 0 := by omega
      have h2 : n - k = 0 := by omega
      simp [h1, h2, h]

theorem triu_indices_eq_spec (n : Nat) : triu_indices n 1 = specUpperPairs n := by
  unfold triu_indices specUpperPairs
  rw [List.flatMap_def, List.flatMap_def]
  congr 1
  apply List.map_congr_left
  intro i _
  rw [filter_range_le (i + 1) n, List.map_map]
  rfl

theorem sum_map_add_one (l : List ℕ) (f : ℕ → ℕ) :
    (l.map (fun x => f x + 1)).sum = (l.map f).sum + l.length := by
  induction l with
  | nil => simp
  | cons x xs ih => simp [ih]; omega

theorem two_mul_sum_range_sub (n : Nat) :
    2 * ((List.range n).map (fun i => n - (i + 1))).sum = n * (n - 1) := by
  induction n with
  | zero => simp
  | succ n ih =>
    rw [List.range_succ, List.map_append]
    have hcongr : (List.range n).map (fun i => n + 1 - (i + 1))
        = (List.range n).map (fun i => (n - (i + 1)) + 1) := by
      apply List.map_congr_left
      intro i hi
      have : i < n := List.mem_range.mp hi
      omega
    rw [hcongr, List.sum_append, sum_map_add_one]
    simp only [List.map_cons, List.map_nil, List.sum_cons, List.sum_nil, List.length_range]
    have hsq : (n + 1) * (n + 1 - 1) = n * (n - 1) + 2 * n := by
      cases n with
      | zero => rfl
      | succ m =>
        simp only [Nat.succ_sub_one]
        ring
    omega

theorem length_triu_indices (n : Nat) :
    (triu_indices n 1).length = n * (n - 1) / 2 := by
  have h2 : 2 * (triu_indices n 1).length = n * (n - 1) := by
    unfold triu_indices
    rw [List.length_flatMap]
    simp only [Function.comp_def]
    have : ((List.range n).map (fun i =>
        (((List.range n).filter (fun j => i + 1 ≤ j)).map (fun j => (i, j))).length))
        = (List.range n).map (fun i => n - (i + 1)) := by
      apply List.map_congr_left
      intro i _
      rw [List.length_map, filter_range_le (i + 1) n, List.length_map, List.length_range]
    rw [this]
    exact two_mul_sum_range_sub n
  omega

/-! ## Claim theorems: off-diagonal extraction -/

/-- C5: for every square n×n matrix, `lower_triangle_flat` returns exactly
n·(n-1)/2 values, read at the index pairs (i, j) with i < j in row-major
order; for n = 0 and n = 1 the result is empty. -/
theorem C5_flatten_shape (df : DFrame) :
    (lower_triangle_flat df).length = df.rows.length * (df.rows.length - 1) / 2
    ∧ lower_triangle_flat df
      = (specUpperPairs df.rows.length).map (fun p => cellAt df p.1 p.2)
    ∧ (df.rows.length ≤ 1 → lower_triangle_flat df = []) := by
  refine ⟨?_, ?_, ?_⟩
  · rw [lower_triangle_flat, List.length_map, length_triu_indices]
  · rw [lower_triangle_flat, triu_indices_eq_spec]
  · intro h
    have h0 : (lower_triangle_flat df).length = 0 := by
      rw [lower_triangle_flat, List.length_map, length_triu_indices]
      have h01 : df.rows.length = 0 ∨ df.rows.length = 1 := by omega
      rcases h01 with h1 | h1 <;> simp [h1]
    exact List.length_eq_zero.mp h0

theorem C5_flatten_shape_witness :
    lower_triangle_flat tinyFrame = [] ∧ (lower_triangle_flat frameAB).length = 1 := by
  constructor
  · exact (C5_flatten_shape tinyFrame).2.2 (by decide)
  · have h := (C5_flatten_shape frameAB).1
    simpa using h

/-- C10: despite its name and docstring, `lower_triangle_flat` reads the
strictly-upper-triangular positions (i, j) with i < j; on the non-symmetric
`asymFrame` it returns the above-diagonal 5, not the below-diagonal 7. -/
theorem C10_upper_not_lower :
    (∀ n : Nat, ∀ p ∈ triu_indices n 1, p.1 < p.2)
    ∧ cellAt asymFrame 0 1 = some 5
    ∧ cellAt asymFrame 1 0 = some 7
    ∧ lower_triangle_flat asymFrame = [some 5] := by
  refine ⟨?_, by decide, by decide, by decide⟩
  intro n p hp
  unfold triu_indices at hp
  simp only [List.mem_flatMap, List.mem_map, List.mem_filter, List.mem_range,
    decide_eq_true_eq] at hp
  obtain ⟨i, _, j, ⟨_, hle⟩, rfl⟩ := hp
  simpa using hle

theorem C10_upper_not_lower_witness : ((0 : Nat), (1 : Nat)).1 < ((0 : Nat), (1 : Nat)).2 :=
  C10_upper_not_lower.1 2 (0, 1) (by decide)

/-! ## Helper lemmas: dot products and the similarity matrix -/

theorem zipWith_rnd_mul_comm (rnd : ℚ → ℚ) (u v : List ℚ) :
    List.zipWith (fun a b => rnd (a * b)) u v
      = List.zipWith (fun a b => rnd (a * b)) v u := by
  induction u generalizing v with
  | nil => cases v <;> simp
  | cons x xs ih =>
    cases v with
    | nil => simp
    | cons y ys => simp [ih, mul_comm]

theorem dotR_comm (rnd : ℚ → ℚ) (u v : List ℚ) : dotR rnd u v = dotR rnd v u := by
  unfold dotR
  rw [zipWith_rnd_mul_comm]

theorem getD_lt {α : Type} {l : List α} {i : Nat} (d : α) (h : i < l.length) :
    l.getD i d = l[i] := by
  simp [List.getD_eq_getElem?_getD, List.getElem?_eq_getElem h]

theorem buildR_cell (rnd : ℚ → ℚ) (vecs : List (String × List ℚ)) (i j : Nat)
    (hi : i < vecs.length) (hj : j < vecs.length) :
    cellAt (buildR rnd vecs) i j
      = some (dotR rnd (normalizeRow (vecs.getD i ("", [])).2)
          (normalizeRow (vecs.getD j ("", [])).2)) := by
  set vi := vecs.getD i ("", []) with hvidef
  set vj := vecs.getD j ("", []) with hvjdef
  have hvi : vecs[i]? = some vi := by
    rw [List.getElem?_eq_getElem hi, hvidef, getD_lt _ hi]
  have hvj : vecs[j]? = some vj := by
    rw [List.getElem?_eq_getElem hj, hvjdef, getD_lt _ hj]
  simp [cellAt, buildR, cosine_similarityR, gram, List.getD_eq_getElem?_getD,
    List.getElem?_map, hvi, hvj]

theorem dotQ_eq_sum (u v : List ℚ) : dotQ u v = (List.zipWith (· * ·) u v).sum := by
  unfold dotQ dotR
  simp only [id_eq]
  rw [foldl_add_eq, zero_add]

theorem sum_nonneg_all_zero {l : List ℚ} (hnn : ∀ x ∈ l, 0 ≤ x) (h : l.sum = 0) :
    ∀ x ∈ l, x = 0 := by
  induction l with
  | nil => simp
  | cons y ys ih =>
    simp only [List.sum_cons] at h
    have hy : 0 ≤ y := hnn y (by simp)
    have hys : 0 ≤ ys.sum := List.sum_nonneg (fun x hx => hnn x (by simp [hx]))
    have hy0 : y = 0 := by linarith
    have hsum0 : ys.sum = 0 := by linarith
    intro x hx
    rcases List.mem_cons.mp hx with rfl | hmem
    · exact hy0
    · exact ih (fun z hz => hnn z (by simp [hz])) hsum0 x hmem

theorem sumSq_eq_zero_all_zero {u : List ℚ} (h : sumSq u = 0) : ∀ a ∈ u, a = 0 := by
  have hsum : sumSq u = (u.map (fun a => a * a)).sum := by
    unfold sumSq
    rw [dotQ_eq_sum, List.zipWith_same]
  rw [hsum] at h
  intro a ha
  have := sum_nonneg_all_zero (l := u.map (fun a => a * a))
    (by
      intro x hx
      simp only [List.mem_map] at hx
      obtain ⟨b, _, rfl⟩ := hx
      exact mul_self_nonneg b) h (a * a) (List.mem_map_of_mem _ ha)
  exact mul_self_eq_zero.mp this

theorem dotQ_zero_left {u : List ℚ} (v : List ℚ) (h : ∀ a ∈ u, a = 0) : dotQ u v = 0 := by
  induction u generalizing v with
  | nil => simp [dotQ_eq_sum]
  | cons x xs ih =>
    cases v with
    | nil => simp [dotQ_eq_sum]
    | cons y ys =>
      have hx : x = 0 := h x (by simp)
      have htail := ih (v := ys) (fun a ha => h a (by simp [ha]))
      rw [dotQ_eq_sum] at htail ⊢
      simp only [List.zipWith_cons_cons, List.sum_cons, hx, zero_mul, zero_add]
      exact htail

theorem normalizeRow_zero_mem {u : List ℚ} (h : ∀ a ∈ u, a = 0) :
    ∀ a ∈ normalizeRow u, a = 0 := by
  unfold normalizeRow
  intro a ha
  simp only [List.mem_map] at ha
  obtain ⟨b, hb, rfl⟩ := ha
  rw [h b hb]
  simp

/-! ## Claim theorems: similarity matrix -/

/-- C1 (amended): on an input containing a zero-norm vector, `build` does not
fail and does not produce NaN: sklearn substitutes norm 1 for the zero norm,
so every similarity involving the degenerate label — including its
self-similarity — is silently the exact value 0, and every cell of the
returned matrix holds a defined number. -/
theorem C1_zero_vector (vecs : List (String × List ℚ)) (i : Nat) (hi : i < vecs.length)
    (hz : sumSq (vecs.getD i ("", [])).2 = 0) :
    (∀ j, j < vecs.length →
      cellAt (build vecs) i j = some 0 ∧ cellAt (build vecs) j i = some 0)
    ∧ (∀ a b : Nat, a < vecs.length → b < vecs.length →
        (cellAt (build vecs) a b).isSome = true) := by
  have hZ : ∀ a ∈ normalizeRow (vecs.getD i ("", [])).2, a = 0 :=
    normalizeRow_zero_mem (sumSq_eq_zero_all_zero hz)
  constructor
  · intro j hj
    unfold build
    rw [buildR_cell id vecs i j hi hj, buildR_cell id vecs j i hj hi]
    constructor
    · exact congrArg some (dotQ_zero_left _ hZ)
    · rw [dotR_comm]
      exact congrArg some (dotQ_zero_left _ hZ)
  · intro a b ha hb
    unfold build
    rw [buildR_cell id vecs a b ha hb]
    rfl

theorem C1_zero_vector_witness :
    cellAt (build zeroVecInput) 1 0 = some 0 ∧ cellAt (build zeroVecInput) 1 1 = some 0 := by
  have h := C1_zero_vector zeroVecInput 1 (by decide)
    (by simp [zeroVecInput, sumSq, dotQ_eq_sum])
  exact ⟨(h.1 0 (by decide)).1, (h.1 1 (by decide)).1⟩

/-- C1 (counterexample to the claim as stated): `zeroVecInput` maps label "Z"
to the zero vector, yet `build` returns a matrix — with the silently
substituted similarity 0 in Z's row and column — instead of failing with
`DegenerateVectorError`. -/
theorem C1_counterexample :
    sumSq ([(0 : ℚ), 0]) = 0
    ∧ build zeroVecInput
      = { rows := ["B", "Z"], cols := ["B", "Z"],
          data := [[some 1, some 0], [some 0, some 0]] } := by
  constructor
  · simp [sumSq, dotQ_eq_sum]
  · simp [build, buildR, cosine_similarityR, gram, zeroVecInput, normalizeRow,
      sumSq, dotQ, dotR, sqrtQ, sqrtN]

/-- C4: the similarity matrix is exactly symmetric, and not merely for exact
rational arithmetic: for every per-operation rounding function `rnd` (so for
every IEEE rounding of the products and partial sums of the dot products),
the cells (i, j) and (j, i) of `buildR rnd` are identical values, because
float multiplication commutes inside each rounded term. -/
theorem C4_bit_exact_symmetry (rnd : ℚ → ℚ) (vecs : List (String × List ℚ))
    (hnd : ∀ v ∈ vecs, sumSq v.2 ≠ 0) (i j : Nat)
    (hi : i < vecs.length) (hj : j < vecs.length) :
    cellAt (buildR rnd vecs) i j = cellAt (buildR rnd vecs) j i := by
  rw [buildR_cell rnd vecs i j hi hj, buildR_cell rnd vecs j i hj hi, dotR_comm]

theorem C4_bit_exact_symmetry_witness :
    cellAt (buildR id [("A", [1, 0]), ("B", [0, 1])]) 0 1
      = cellAt (buildR id [("A", [1, 0]), ("B", [0, 1])]) 1 0 :=
  C4_bit_exact_symmetry id [("A", [1, 0]), ("B", [0, 1])] (by simp [sumSq, dotQ_eq_sum]) 0 1
    (by decide) (by decide)

/-! ## Helper lemmas: sorted label unions and label lookup -/

theorem dedupSort_sorted (l : List String) : List.Sorted (· ≤ ·) (dedupSort l) :=
  List.Pairwise.sublist (List.dedup_sublist _) (List.sorted_insertionSort _ _)

theorem dedupSort_nodup (l : List String) : (dedupSort l).Nodup :=
  List.nodup_dedup _

theorem mem_dedupSort {l : List String} {x : String} : x ∈ dedupSort l ↔ x ∈ l := by
  simp [dedupSort, List.mem_dedup, List.mem_insertionSort]

theorem mem_sortedUnion {l₁ l₂ : List String} {x : String} :
    x ∈ sortedUnion l₁ l₂ ↔ x ∈ l₁ ∨ x ∈ l₂ := by
  simp [sortedUnion, mem_dedupSort]

theorem dedupSort_eq_self {l : List String} (hs : List.Sorted (· ≤ ·) l) (hn : l.Nodup) :
    dedupSort l = l := by
  rw [dedupSort, hs.insertionSort_eq, List.dedup_eq_self.mpr hn]

theorem sortedUnion_self {l : List String} (hs : List.Sorted (· ≤ ·) l) (hn : l.Nodup) :
    sortedUnion l l = l := by
  have hperm : List.Perm (sortedUnion l l) l := by
    apply (List.perm_ext_iff_of_nodup (dedupSort_nodup _) hn).mpr
    intro a
    rw [mem_dedupSort, List.mem_append, or_self]
  exact List.eq_of_perm_of_sorted hperm (dedupSort_sorted _) hs

theorem findIdx?_of_mem {l : List String} {x : String} (h : x ∈ l) :
    ∃ i, l.findIdx? (fun s => s = x) = some i ∧ i < l.length ∧ l.getD i "" = x := by
  induction l with
  | nil => simp at h
  | cons a as ih =>
    by_cases ha : a = x
    · refine ⟨0, ?_, by simp, by simp [ha]⟩
      simp [List.findIdx?_cons, ha]
    · have hx : x ∈ as := by
        rcases List.mem_cons.mp h with rfl | hmem
        · exact absurd rfl ha
        · exact hmem
      obtain ⟨i, hfi, hil, hgi⟩ := ih hx
      refine ⟨i + 1, ?_, by simpa using hil, by simpa using hgi⟩
      simp [List.findIdx?_cons, ha, hfi]

theorem findIdx?_eq_none_of_not_mem {l : List String} {x : String} (h : x ∉ l) :
    l.findIdx? (fun s => s = x) = none := by
  induction l with
  | nil => simp
  | cons a as ih =>
    have ha : a ≠ x := by
      intro hax
      exact h (hax ▸ List.mem_cons_self a as)
    have has : x ∉ as := fun hmem => h (List.mem_cons_of_mem a hmem)
    simp [List.findIdx?_cons, ha, ih has]

theorem getD_map_of_mem_idx {α : Type} {l : List String} {i : Nat} {x : String}
    (g : String → α) (d : α) (hil : i < l.length) (hgi : l.getD i "" = x) :
    (l.map g).getD i d = g x := by
  rw [getD_lt d (by simpa using hil), List.getElem_map, ← hgi, getD_lt _ hil]

theorem cellL_mk_map (r c : List String) (g : String → String → Option ℚ)
    {rl cl : String} (h1 : rl ∈ r) (h2 : cl ∈ c) :
    cellL { rows := r, cols := c,
            data := r.map (fun x => c.map (fun y => g x y)) } rl cl = g rl cl := by
  obtain ⟨i, hfi, hil, hgi⟩ := findIdx?_of_mem h1
  obtain ⟨j, hfj, hjl, hgj⟩ := findIdx?_of_mem h2
  unfold cellL cellAt
  rw [hfi, hfj]
  show ((r.map (fun x => c.map (fun y => g x y))).getD i []).getD j none = g rl cl
  rw [getD_map_of_mem_idx (fun x => c.map (fun y => g x y)) [] hil hgi,
    getD_map_of_mem_idx (fun y => g rl y) none hjl hgj]

theorem cellL_eq_none_of_not_mem_rows {f : DFrame} {rl cl : String} (h : rl ∉ f.rows) :
    cellL f rl cl = none := by
  unfold cellL
  rw [findIdx?_eq_none_of_not_mem h]

theorem cellL_eq_none_of_not_mem_cols {f : DFrame} {rl cl : String} (h : cl ∉ f.cols) :
    cellL f rl cl = none := by
  unfold cellL
  rw [findIdx?_eq_none_of_not_mem h]
  rcases f.rows.findIdx? (fun s => s = rl) with _ | i <;> rfl

theorem cellL_reindex {f : DFrame} {r c : List String} {rl cl : String}
    (h1 : rl ∈ r) (h2 : cl ∈ c) :
    cellL (reindex f r c) rl cl = cellL f rl cl :=
  cellL_mk_map r c (fun x y => cellL f x y) h1 h2

/-! ## Claim theorems: alignment -/

/-- C2 (amended): `align` reindexes both frames to the sorted **union** of
the row labels and of the column labels of the two inputs (pandas
`join='outer'`); a label present in only one input is kept, its new cells
filled with NaN; nothing is dropped and no list of dropped labels is
returned — the result is just the pair of aligned frames. -/
theorem C2_align_union (p o : DFrame) :
    (alignDF p o).1.rows = sortedUnion p.rows o.rows
    ∧ (alignDF p o).2.rows = (alignDF p o).1.rows
    ∧ (alignDF p o).2.cols = (alignDF p o).1.cols
    ∧ List.Sorted (· ≤ ·) (alignDF p o).1.rows
    ∧ (alignDF p o).1.rows.Nodup
    ∧ (∀ l, l ∈ (alignDF p o).1.rows ↔ (l ∈ p.rows ∨ l ∈ o.rows))
    ∧ (∀ l, l ∈ (alignDF p o).1.cols ↔ (l ∈ p.cols ∨ l ∈ o.cols))
    ∧ (∀ rl cl, rl ∉ p.rows → cellL (alignDF p o).1 rl cl = none)
    ∧ (∀ rl cl, rl ∉ o.rows → cellL (alignDF p o).2 rl cl = none) := by
  refine ⟨rfl, rfl, rfl, dedupSort_sorted _, dedupSort_nodup _,
    fun l => mem_sortedUnion, fun l => mem_sortedUnion, ?_, ?_⟩
  · intro rl cl hnotin
    by_cases hr : rl ∈ sortedUnion p.rows o.rows
    · by_cases hc : cl ∈ sortedUnion p.cols o.cols
      · show cellL (reindex p _ _) rl cl = none
        rw [cellL_reindex hr hc]
        exact cellL_eq_none_of_not_mem_rows hnotin
      · exact cellL_eq_none_of_not_mem_cols hc
    · exact cellL_eq_none_of_not_mem_rows hr
  · intro rl cl hnotin
    by_cases hr : rl ∈ sortedUnion p.rows o.rows
    · by_cases hc : cl ∈ sortedUnion p.cols o.cols
      · show cellL (reindex o _ _) rl cl = none
        rw [cellL_reindex hr hc]
        exact cellL_eq_none_of_not_mem_rows hnotin
      · exact cellL_eq_none_of_not_mem_cols hc
    · exact cellL_eq_none_of_not_mem_rows hr

theorem C2_align_union_witness :
    cellL (alignDF frameAB frameBC).2 "A" "B" = none :=
  (C2_align_union frameAB frameBC).2.2.2.2.2.2.2.2 "A" "B" (by decide)

/-- C2 (counterexample to the claim as stated): aligning the frames with
labels {A, B} and {B, C} keeps all three labels (the sorted union), instead
of restricting to the sorted intersection ["B"]; label "A", present only in
the first input, is not dropped — its cells in the second aligned frame are
NaN. -/
theorem C2_counterexample :
    (alignDF frameAB frameBC).1.rows = ["A", "B", "C"]
    ∧ "A" ∉ frameBC.rows
    ∧ "A" ∈ (alignDF frameAB frameBC).1.rows
    ∧ (alignDF frameAB frameBC).1.rows ≠ ["B"] := by
  have h : (alignDF frameAB frameBC).1.rows = ["A", "B", "C"] := by
    show sortedUnion frameAB.rows frameBC.rows = ["A", "B", "C"]
    simp [frameAB, frameBC, sortedUnion, dedupSort, List.insertionSort,
      List.orderedInsert, List.dedup_cons_of_mem, List.dedup_cons_of_not_mem]
    decide
  refine ⟨h, by decide, by rw [h]; decide, by rw [h]; decide⟩

/-- C8: the shared label sequence of `align` is deterministic (equal inputs
give equal outputs), and `align` is idempotent on label ordering: aligning
the already-aligned pair leaves every row and column label sequence
unchanged. -/
theorem C8_align_idempotent (p o : DFrame) :
    (∀ p₂ o₂ : DFrame, p = p₂ → o = o₂ → alignDF p o = alignDF p₂ o₂)
    ∧ (alignDF (alignDF p o).1 (alignDF p o).2).1.rows = (alignDF p o).1.rows
    ∧ (alignDF (alignDF p o).1 (alignDF p o).2).1.cols = (alignDF p o).1.cols
    ∧ (alignDF (alignDF p o).1 (alignDF p o).2).2.rows = (alignDF p o).2.rows
    ∧ (alignDF (alignDF p o).1 (alignDF p o).2).2.cols = (alignDF p o).2.cols := by
  refine ⟨?_, ?_, ?_, ?_, ?_⟩
  · rintro p₂ o₂ rfl rfl
    rfl
  · exact sortedUnion_self (dedupSort_sorted _) (dedupSort_nodup _)
  · exact sortedUnion_self (dedupSort_sorted _) (dedupSort_nodup _)
  · exact sortedUnion_self (dedupSort_sorted _) (dedupSort_nodup _)
  · exact sortedUnion_self (dedupSort_sorted _) (dedupSort_nodup _)

theorem C8_align_idempotent_witness :
    alignDF frameAB frameBC = alignDF frameAB frameBC :=
  (C8_align_idempotent frameAB frameBC).1 frameAB frameBC rfl rfl

/-! ## Helper lemmas: pivoting -/

theorem find?_key_eq {ts : List (String × String × ℚ)}
    (hn : (ts.map (fun t => (t.1, t.2.1))).Nodup) {t : String × String × ℚ} (ht : t ∈ ts) :
    ts.find? (fun u => u.1 = t.1 ∧ u.2.1 = t.2.1) = some t := by
  induction ts with
  | nil => cases ht
  | cons a as ih =>
    rw [List.map_cons, List.nodup_cons] at hn
    by_cases hkey : a.1 = t.1 ∧ a.2.1 = t.2.1
    · have hfind : (a :: as).find? (fun u => u.1 = t.1 ∧ u.2.1 = t.2.1) = some a :=
        List.find?_cons_of_pos _ (by simpa using hkey)
      rw [hfind]
      rcases List.mem_cons.mp ht with rfl | hmem
      · rfl
      · exfalso
        apply hn.1
        have : (t.1, t.2.1) ∈ as.map (fun u => (u.1, u.2.1)) :=
          List.mem_map_of_mem _ hmem
        rw [show ((a.1, a.2.1) : String × String) = (t.1, t.2.1) from by
          rw [hkey.1, hkey.2]]
        exact this
    · have hfind : (a :: as).find? (fun u => u.1 = t.1 ∧ u.2.1 = t.2.1)
          = as.find? (fun u => u.1 = t.1 ∧ u.2.1 = t.2.1) :=
        List.find?_cons_of_neg _ (by simpa using hkey)
      rw [hfind]
      have hmem : t ∈ as := by
        rcases List.mem_cons.mp ht with rfl | hmem
        · exact absurd ⟨rfl, rfl⟩ hkey
        · exact hmem
      exact ih hn.2 hmem

/-! ## Claim theorems: pivoting -/

/-- C7 (amended): `pivot` fails exactly when the same **ordered**
(construct_1, construct_2) pair occurs twice in the triples — even when the
two occurrences carry the same value.  The same unordered pair in opposite
orders is accepted without error: each order fills its own cell, so
conflicting values for an unordered pair coexist in the pivoted matrix. -/
theorem C7_pivot_duplicates (ts : List (String × String × ℚ)) :
    (pivotDF ts = none ↔ ¬ (ts.map (fun t => (t.1, t.2.1))).Nodup)
    ∧ (∀ t ∈ ts, ∀ df, pivotDF ts = some df → cellL df t.1 t.2.1 = some t.2.2) := by
  constructor
  · by_cases h : (ts.map (fun t => (t.1, t.2.1))).Nodup <;> simp [pivotDF, h]
  · intro t ht df hdf
    by_cases h : (ts.map (fun t => (t.1, t.2.1))).Nodup
    · rw [pivotDF, if_pos h, Option.some.injEq] at hdf
      subst hdf
      have h1 : t.1 ∈ dedupSort (ts.map (fun u => u.1)) :=
        mem_dedupSort.mpr (List.mem_map_of_mem _ ht)
      have h2 : t.2.1 ∈ dedupSort (ts.map (fun u => u.2.1)) :=
        mem_dedupSort.mpr (List.mem_map_of_mem _ ht)
      rw [cellL_mk_map _ _
        (fun r c => (ts.find? (fun u => u.1 = r ∧ u.2.1 = c)).map (fun u => u.2.2)) h1 h2,
        find?_key_eq h ht]
      rfl
    · rw [pivotDF, if_neg h] at hdf
      cases hdf

theorem C7_pivot_duplicates_witness : pivotDF dupOrderedTriples = none :=
  (C7_pivot_duplicates dupOrderedTriples).1.mpr (by decide)

/-- C7 (counterexample to the claim as stated): `conflictTriples` contains
the unordered pair {A, B} twice with conflicting values (0.5 and 0.9, in
opposite orders), yet `pivot` succeeds, giving each order its own cell —
while `dupOrderedTriples`, whose duplicate carries equal values, fails. -/
theorem C7_counterexample :
    (pivotDF conflictTriples).isSome = true
    ∧ pivotDF dupOrderedTriples = none := by
  constructor
  · rw [pivotDF, if_pos (by decide)]
    rfl
  · rw [pivotDF, if_neg (by decide)]

/-! ## Helper lemmas: square roots and variance -/

theorem sqrtN_pos {n : Nat} (h : 0 < n) : 0 < sqrtN n := by
  cases n with
  | zero => omega
  | succ m =>
    by_cases hc : (sqrtN m + 1) * (sqrtN m + 1) ≤ m + 1
    · simp [sqrtN, hc]
    · simp only [sqrtN, hc, if_false]
      rcases Nat.eq_zero_or_pos (sqrtN m) with h0 | h0
      · rw [h0] at hc
        omega
      · exact h0

theorem sqrtN_invariant (n : Nat) :
    sqrtN n * sqrtN n ≤ n ∧ n < (sqrtN n + 1) * (sqrtN n + 1) := by
  induction n with
  | zero => exact ⟨Nat.le_refl 0, Nat.zero_lt_one⟩
  | succ m ih =>
    by_cases hc : (sqrtN m + 1) * (sqrtN m + 1) ≤ m + 1
    · have hs : sqrtN (m + 1) = sqrtN m + 1 := by simp [sqrtN, hc]
      rw [hs]
      refine ⟨hc, ?_⟩
      have h2 : (sqrtN m + 1) * (sqrtN m + 1) < (sqrtN m + 1 + 1) * (sqrtN m + 1 + 1) := by
        nlinarith
      omega
    · have hs : sqrtN (m + 1) = sqrtN m := by simp [sqrtN, hc]
      rw [hs]
      exact ⟨by omega, by omega⟩

theorem sqrtQ_zero : sqrtQ 0 = 0 := by
  simp [sqrtQ, sqrtN]

theorem sqrtQ_pos {q : ℚ} (h : 0 < q) : 0 < sqrtQ q := by
  have hnum : 0 < q.num := Rat.num_pos.mpr h
  have h1 : 0 < sqrtN q.num.toNat := sqrtN_pos (by omega)
  have h2 : 0 < sqrtN q.den := sqrtN_pos q.pos
  unfold sqrtQ
  exact div_pos (by exact_mod_cast h1) (by exact_mod_cast h2)

theorem sqrtQ_eq_zero_iff {q : ℚ} (hq : 0 ≤ q) : sqrtQ q = 0 ↔ q = 0 := by
  constructor
  · intro h0
    by_contra hne
    exact (sqrtQ_pos (lt_of_le_of_ne hq (Ne.symm hne))).ne' h0
  · rintro rfl
    exact sqrtQ_zero

theorem devSq_nonneg (l : List ℚ) : 0 ≤ devSq l := by
  apply List.sum_nonneg
  intro x hx
  simp only [List.mem_map] at hx
  obtain ⟨y, _, rfl⟩ := hx
  positivity

theorem devSq_eq_zero_of_short {l : List ℚ} (h : l.length < 2) : devSq l = 0 := by
  rcases l with _ | ⟨x, _ | ⟨y, tl⟩⟩
  · simp [devSq]
  · simp [devSq, meanQ]
  · simp only [List.length_cons] at h
    omega

theorem corrPairs_eq_none_iff (ps : List (ℚ × ℚ)) :
    corrPairs ps = none
      ↔ (devSq (ps.map (fun p => p.1)) = 0 ∨ devSq (ps.map (fun p => p.2)) = 0) := by
  unfold corrPairs
  by_cases h : sqrtQ (devSq (ps.map (fun p => p.1)))
      * sqrtQ (devSq (ps.map (fun p => p.2))) = 0
  · rw [if_pos h]
    simp only [true_iff]
    rcases mul_eq_zero.mp h with h0 | h0
    · exact Or.inl ((sqrtQ_eq_zero_iff (devSq_nonneg _)).mp h0)
    · exact Or.inr ((sqrtQ_eq_zero_iff (devSq_nonneg _)).mp h0)
  · rw [if_neg h]
    constructor
    · intro hfalse
      simp at hfalse
    · intro hor
      exfalso
      apply h
      rcases hor with h0 | h0
      · rw [h0, sqrtQ_zero, zero_mul]
      · rw [h0, sqrtQ_zero, mul_zero]

/-! ## Claim theorems: correlation scorer -/

/-- C3 (amended): `score` raises nothing: it returns NaN (modelled `none`)
whenever fewer than two valid pairs remain or either coordinate has zero
variance (the Pearson denominator degenerates to 0), and a defined Pearson
coefficient exactly otherwise. -/
theorem C3_corr_nan (a b : List (Option ℚ)) :
    ((validPairs a b).length < 2 → corrQ a b = none)
    ∧ (corrQ a b = none
        ↔ (devSq ((validPairs a b).map (fun p => p.1)) = 0
            ∨ devSq ((validPairs a b).map (fun p => p.2)) = 0)) := by
  constructor
  · intro h
    show corrPairs (validPairs a b) = none
    rw [corrPairs_eq_none_iff]
    left
    exact devSq_eq_zero_of_short (by simpa using h)
  · exact corrPairs_eq_none_iff _

theorem C3_corr_nan_witness : corrQ [some 1, some 1] [some 0, some 2] = none := by
  apply (C3_corr_nan [some 1, some 1] [some 0, some 2]).2.mpr
  left
  have hv : validPairs [some 1, some 1] [some 0, some 2] = [(1, 0), (1, 2)] := rfl
  rw [hv]
  norm_num [devSq, meanQ]

/-- C3 (counterexample to the claim as stated): on the single-element
sequences of the 2-label scenario, `score` returns the NaN value `none`
instead of raising `InsufficientDataError`. -/
theorem C3_counterexample : corrQ [some 0] [some (1/2)] = none := by
  show corrPairs [(0, 1/2)] = none
  rw [corrPairs_eq_none_iff]
  left
  norm_num [devSq, meanQ]

theorem validPairs_eraseIdx (a b : List (Option ℚ)) (k : Nat)
    (h : a.getD k none = none ∨ b.getD k none = none) :
    validPairs a b = validPairs (a.eraseIdx k) (b.eraseIdx k) := by
  induction k generalizing a b with
  | zero =>
    rcases a with _ | ⟨x, xs⟩
    · simp [validPairs]
    rcases b with _ | ⟨y, ys⟩
    · simp [validPairs]
    simp only [List.getD_cons_zero] at h
    simp only [List.eraseIdx_cons_zero]
    rcases h with rfl | rfl
    · simp [validPairs]
    · cases x <;> simp [validPairs]
  | succ k ih =>
    rcases a with _ | ⟨x, xs⟩
    · simp [validPairs]
    rcases b with _ | ⟨y, ys⟩
    · simp [validPairs]
    simp only [List.getD_cons_succ] at h
    simp only [List.eraseIdx_cons_succ]
    have ht := ih xs ys h
    cases x <;> cases y <;>
      simp only [validPairs, List.zip_cons_cons, List.filterMap_cons] at ht ⊢ <;>
      simp [ht]

/-- C9: a position where either flattened series holds NaN is silently
excluded from the correlation: dropping that index pair from both sequences
leaves `corr` unchanged, and no error is produced (`corrQ` is total). -/
theorem C9_nan_pairs_dropped (a b : List (Option ℚ)) (k : Nat)
    (hk : k < a.length) (hlen : a.length = b.length)
    (h : a.getD k none = none ∨ b.getD k none = none) :
    corrQ a b = corrQ (a.eraseIdx k) (b.eraseIdx k) := by
  unfold corrQ
  rw [validPairs_eraseIdx a b k h]

theorem C9_nan_pairs_dropped_witness :
    corrQ [some 1, some 2, none] [some 3, some 5, some 7]
      = corrQ [some 1, some 2] [some 3, some 5] := by
  have h := C9_nan_pairs_dropped [some 1, some 2, none] [some 3, some 5, some 7] 2
    (by decide) (by decide) (Or.inl (by decide))
  simpa using h

/-! ## Helper lemmas: aggregation -/

theorem length_foldr_zipWith (d : Nat) (vs : List (List ℚ))
    (hd : ∀ v ∈ vs, v.length = d) :
    (vs.foldr (fun v acc => List.zipWith (· + ·) v acc) (List.replicate d 0)).length
      = d := by
  induction vs with
  | nil => simp
  | cons v vs ih =>
    simp only [List.foldr_cons, List.length_zipWith]
    rw [hd v (by simp), ih (fun u hu => hd u (by simp [hu]))]
    simp

theorem getD_foldr_zipWith (d : Nat) (vs : List (List ℚ))
    (hd : ∀ v ∈ vs, v.length = d) (k : Nat) (hk : k < d) :
    (vs.foldr (fun v acc => List.zipWith (· + ·) v acc) (List.replicate d 0)).getD k 0
      = (vs.map (fun v => v.getD k 0)).sum := by
  induction vs with
  | nil =>
    rw [List.foldr_nil, getD_lt 0 (by simpa using hk)]
    simp
  | cons v vs ih =>
    have hvd : v.length = d := hd v (by simp)
    have htl : ∀ u ∈ vs, u.length = d := fun u hu => hd u (by simp [hu])
    have hlen := length_foldr_zipWith d vs htl
    have h1 : k < (List.zipWith (· + ·) v
        (vs.foldr (fun u acc => List.zipWith (· + ·) u acc) (List.replicate d 0))).length := by
      rw [List.length_zipWith, hvd, hlen]
      omega
    rw [List.foldr_cons, getD_lt 0 h1, List.getElem_zipWith, List.map_cons, List.sum_cons]
    congr 1
    · rw [getD_lt 0 (by omega : k < v.length)]
    · rw [← ih htl, getD_lt 0 (by rw [hlen]; exact hk)]

theorem colMeans_eq_specMeanVec (d : Nat) (vs : List (List ℚ))
    (hd : ∀ v ∈ vs, v.length = d) :
    (List.range d).map (fun k => colMean vs k) = specMeanVec d vs := by
  apply List.ext_getElem
  · simp [specMeanVec, length_foldr_zipWith d vs hd]
  · intro i h1 h2
    have hi : i < d := by simpa using h1
    simp only [List.getElem_map, List.getElem_range, specMeanVec, colMean]
    congr 1
    rw [← getD_foldr_zipWith d vs hd i hi,
      getD_lt 0 (by rw [length_foldr_zipWith d vs hd]; exact hi)]

/-! ## Claim theorems: aggregation -/

/-- C6: `aggregate` yields one entry per distinct label (the sorted distinct
labels), each entry the per-dimension arithmetic mean of that label's
embeddings with the input dimensionality; on the spec scenario
[(A,[1,0]), (A,[1,0]), (B,[0,1])] it yields A ↦ [1,0], B ↦ [0,1], and the
resulting similarity matrix is the identity [[1,0],[0,1]]. -/
theorem C6_aggregate_mean (items : List (String × List ℚ)) (d : Nat)
    (hne : items ≠ []) (hd : ∀ it ∈ items, it.2.length = d) :
    (aggregate items).map (fun p => p.1) = dedupSort (items.map (fun it => it.1))
    ∧ (∀ p ∈ aggregate items, p.2.length = d)
    ∧ (∀ p ∈ aggregate items, p.2 = specMeanVec d (rowsOf items p.1))
    ∧ aggregate scenarioItems = [("A", [1, 0]), ("B", [0, 1])]
    ∧ build (aggregate scenarioItems) = frameAB := by
  have hd' : ((items.headD ("", [])).2).length = d := by
    rcases items with _ | ⟨it, rest⟩
    · exact absurd rfl hne
    · exact hd it (by simp)
  have hrows : ∀ l, ∀ v ∈ rowsOf items l, v.length = d := by
    intro l v hv
    simp only [rowsOf, List.mem_map, List.mem_filter] at hv
    obtain ⟨it, ⟨hit, _⟩, rfl⟩ := hv
    exact hd it hit
  have h4 : aggregate scenarioItems = [("A", [1, 0]), ("B", [0, 1])] := by
    simp [aggregate, scenarioItems, dedupSort, List.insertionSort, List.orderedInsert,
      rowsOf, colMean, List.dedup_cons_of_mem, List.dedup_cons_of_not_mem,
      List.range_succ]
  refine ⟨?_, ?_, ?_, h4, ?_⟩
  · simp [aggregate, Function.comp_def, List.map_id']
  · intro p hp
    simp only [aggregate, List.mem_map] at hp
    obtain ⟨l, _, rfl⟩ := hp
    show ((List.range ((items.headD ("", [])).2).length).map
        (fun k => colMean (rowsOf items l) k)).length = d
    rw [List.length_map, List.length_range]
    exact hd'
  · intro p hp
    simp only [aggregate, List.mem_map] at hp
    obtain ⟨l, _, rfl⟩ := hp
    show (List.range ((items.headD ("", [])).2).length).map
        (fun k => colMean (rowsOf items l) k) = specMeanVec d (rowsOf items l)
    rw [hd']
    exact colMeans_eq_specMeanVec d (rowsOf items l) (hrows l)
  · rw [h4]
    simp [build, buildR, cosine_similarityR, gram, frameAB, normalizeRow,
      sumSq, dotQ, dotR, sqrtQ, sqrtN]

theorem C6_aggregate_mean_witness :
    aggregate scenarioItems = [("A", [1, 0]), ("B", [0, 1])] :=
  (C6_aggregate_mean scenarioItems 2 (by decide) (by decide)).2.2.2.1

end NeoPipeline
